import Mathlib

/-!
Shallow embedding of `scripts/analyze_xunit_percentage_changed.py`.

The script compares two sets of xunit test-time reports ("base" and
"compare") and raises `ThresholdExceeded` when a per-test or aggregate
time regression exceeds a percentage threshold.  We model:

  * Python `dict[str, float]` as an ordered association list `Dict` built
    with a last-write-wins insert (`dictInsert`), matching CPython dict
    assignment semantics (overwrite in place, new keys appended);
  * durations and percentages as rationals `ℚ`;
  * fallible Python operations with `Except PyError`: `FileNotFoundError`,
    `ThresholdExceeded`, `ZeroDivisionError` (raised by `/` on a zero
    denominator), `TypeError` (raised by `>` between a float and a str)
    and `UnboundLocalError` (referencing a never-assigned local);
  * the filesystem and the external `junitparser` library abstractly: a
    `FileSystem` record supplies `os.path.exists`/`isfile`/`isdir`,
    `os.walk` and `JUnitXml.fromfile`; `JUnitXml.__iadd__` (merging) is
    `xmlAdd`, which appends the other report's children to the
    accumulated root, as junitparser does.
-/

namespace AnalyzeXunit

/-- A Python `dict[str, float]`: an ordered association list.  When built
from `[]` by `dictInsert`, keys are unique and appear in first-insertion
order, as in CPython. -/
abbrev Dict := List (String × ℚ)

/-- Python `k in d`. -/
def dictContains : Dict → String → Bool
  | [], _ => false
  | p :: d, k => if p.1 = k then true else dictContains d k

/-- Python `d[k]` / `d.get(k)`: the value at the first entry whose key is
`k` (the only one, when keys are unique). -/
def dictGet : Dict → String → Option ℚ
  | [], _ => none
  | p :: d, k => if p.1 = k then some p.2 else dictGet d k

/-- Python `d[k] = v`: overwrite in place if the key is present (keeping
its position), otherwise append at the end. -/
def dictInsert (d : Dict) (k : String) (v : ℚ) : Dict :=
  if dictContains d k then d.map fun p => if p.1 = k then (k, v) else p
  else d ++ [(k, v)]

/-- Assign a whole sequence of key/value records into `d`, left to right. -/
def dictInsertAll (d : Dict) (rs : List (String × ℚ)) : Dict :=
  rs.foldl (fun a p => dictInsert a p.1 p.2) d

/-- Python `d.update(other)`: assign every item of `other` into `d`, in
`other`'s iteration order. -/
def dictUpdate (d other : Dict) : Dict :=
  dictInsertAll d other

/-- Python `list(d.keys())`. -/
def dictKeys (d : Dict) : List String :=
  d.map Prod.fst

/-- Python `sum(d.values())`. -/
def sumValues (d : Dict) : ℚ :=
  (d.map Prod.snd).sum

/-- The keys of `d` are pairwise distinct (true of every real Python dict). -/
def dictNodup (d : Dict) : Prop :=
  (dictKeys d).Nodup

/-- First-biased choice on options (`a` if present, else `b`). -/
def optOr : Option ℚ → Option ℚ → Option ℚ
  | some v, _ => some v
  | none, o => o

/-- The value of the LAST record with key `k` in a record sequence —
what a sequence of Python dict assignments leaves at `k`. -/
def lastBinding (rs : List (String × ℚ)) (k : String) : Option ℚ :=
  dictGet rs.reverse k

/-- The children of a junit container: either a nested `TestSuite` (with
its own name and children) or a leaf test case (`classname`, `name`,
`time`).  The child list is fused into the inductive (`nil`,
cons-a-case, cons-a-suite) so that all recursion is structural; it is
exactly `List (TestSuite ⊕ TestCase)` in sequence. -/
inductive JUnitItems : Type where
  | nil : JUnitItems
  | consCase (classname testname : String) (time : ℚ) (rest : JUnitItems) : JUnitItems
  | consSuite (name : String) (children : JUnitItems) (rest : JUnitItems) : JUnitItems

/-- A junit container — the `JUnitXml` root or a `TestSuite`: a name plus
iterable children.  `convert_junit_to_dict` only uses `.name` and
iteration, which both provide. -/
structure JUnitXml where
  name : String
  items : JUnitItems

/-- Concatenate two child lists (used by report merging). -/
def itemsAppend : JUnitItems → JUnitItems → JUnitItems
  | .nil, ys => ys
  | .consCase c t tm rest, ys => .consCase c t tm (itemsAppend rest ys)
  | .consSuite n ch rest, ys => .consSuite n ch (itemsAppend rest ys)

/-- Worker for `convert_junit_to_dict` (script lines 62–69): starting from
the accumulated `tests` dict, iterate the container's items in order; a
nested `TestSuite` contributes `tests.update(convert_junit_to_dict(item))`
— note the recursive call passes the NESTED suite as the new container,
so its leaves are keyed by the nested suite's name — and a leaf is
written at key `f"{xml.name}.{item.classname}.{item.name}"`. -/
def convertItems : String → Dict → JUnitItems → Dict
  | _, tests, .nil => tests
  | name, tests, .consSuite sn sc rest =>
      convertItems name (dictUpdate tests (convertItems sn [] sc)) rest
  | name, tests, .consCase c t tm rest =>
      convertItems name (dictInsert tests (name ++ "." ++ c ++ "." ++ t) tm) rest

/-- The function `convert_junit_to_dict` (script lines 62–69). -/
def convert_junit_to_dict (xml : JUnitXml) : Dict :=
  convertItems xml.name [] xml.items

/-- The in-order sequence of `(composite key, time)` records produced by a
container's tree, where each leaf is keyed by its IMMEDIATE parent
container's name (`"<parent>.<classname>.<testname>"`). -/
def treeRecords : String → JUnitItems → List (String × ℚ)
  | _, .nil => []
  | name, .consSuite sn sc rest => treeRecords sn sc ++ treeRecords name rest
  | name, .consCase c t tm rest =>
      (name ++ "." ++ c ++ "." ++ t, tm) :: treeRecords name rest

/-- Pieces of `calculate_changed` (script lines 72–82): over the keys present in
both dicts, percentage change `(compare_to[k] - base[k]) / base[k] * 100`,
or `0` when `base[k] == 0` ("Don't divide by zero").  Python iterates a
set here, whose order is unspecified; we iterate base-key order — dict
content is order-insensitive since each key is written one value. -/
def bothKeys (base compare_to : Dict) : List String :=
  (dictKeys base).filter fun k => dictContains compare_to k

/-- The percentage change `calculate_changed` writes for a shared key. -/
def changeAt (base compare_to : Dict) (key : String) : ℚ :=
  if (dictGet base key).getD 0 = 0 then 0
  else ((dictGet compare_to key).getD 0 - (dictGet base key).getD 0)
    / (dictGet base key).getD 0 * 100

/-- The function `calculate_changed` (script lines 72–82). -/
def calculate_changed (base compare_to : Dict) : Dict :=
  dictInsertAll [] ((bothKeys base compare_to).map fun k => (k, changeAt base compare_to k))

/-- The Python errors the script can raise. -/
inductive PyError : Type where
  | fileNotFoundError (path : String) : PyError
  | thresholdExceeded (payload : Dict) : PyError
  | zeroDivisionError : PyError
  | typeError : PyError
  | unboundLocalError : PyError
deriving DecidableEq

/-- Line 90's dict comprehension
`{k: v for k, v in changed.items() if v > options.threshold}`, with a
numeric threshold. -/
def overThreshold (changed : Dict) (threshold : ℚ) : Dict :=
  changed.filter fun p => threshold < p.2

/-- Line 98: `set(compare_to.keys()).difference(base.keys())` (iterated in
compare-key order; set order is unspecified and content-irrelevant). -/
def additiveKeys (base compare_to : Dict) : List String :=
  (dictKeys compare_to).filter fun k => !dictContains base k

/-- Line 105: `{k: compare_to[k] for k in additive}`. -/
def addedTime (base compare_to : Dict) : Dict :=
  (additiveKeys base compare_to).map fun k => (k, (dictGet compare_to k).getD 0)

/-- Lines 101–103:
`(total_time_compare - total_time_base) / total_time_base * 100`
(only meaningful when the base total is nonzero; the script has no guard
and Python raises `ZeroDivisionError` — see `mainCheck`). -/
def totalPercentageChanged (base compare_to : Dict) : ℚ :=
  (sumValues compare_to - sumValues base) / sumValues base * 100

/-- Lines 90–109 of `main`, after the reports are loaded and the delta is
computed, with a numeric threshold (the §4.3 contract
`check(delta, base, compare, threshold: number)`).  The first branch is
line 92's `if over_threshold: raise ThresholdExceeded(...)`; otherwise
lines 99–103 compute the aggregate percentage — Python's `/` raises
`ZeroDivisionError` when `sum(base.values()) == 0` — and line 104 compares
it to the threshold, raising with the `added_time` payload. -/
def mainCheck (changed base compare_to : Dict) (threshold : ℚ) :
    Except PyError Unit :=
  let over_threshold := overThreshold changed threshold
  if over_threshold ≠ [] then
    .error (.thresholdExceeded over_threshold)
  else if sumValues base = 0 then
    .error .zeroDivisionError
  else if threshold < totalPercentageChanged base compare_to then
    .error (.thresholdExceeded (addedTime base compare_to))
  else
    .ok ()

/-- The filesystem and external parsing facilities the script calls:
`os.path.exists`, `os.path.isfile`, `os.path.isdir`, `os.walk` (a list of
`(root, files)` pairs; the middle `dirs` component is unused by the
script) and `JUnitXml.fromfile` (total here: parse failures are out of
the script's scope). -/
structure FileSystem where
  pathExists : String → Bool
  isFile : String → Bool
  isDir : String → Bool
  walk : String → List (String × List String)
  fileXml : String → JUnitXml

/-- Models `JUnitXml()` — a fresh empty accumulated report (its root name is
never used: only suites are merged under it). -/
def emptyXml : JUnitXml :=
  ⟨"", .nil⟩

/-- Models `ret_xml += JUnitXml.fromfile(...)` — junitparser merging appends the
other report's children under the accumulated root. -/
def xmlAdd (a b : JUnitXml) : JUnitXml :=
  ⟨a.name, itemsAppend a.items b.items⟩

/-- Models `os.path.join(root, file)` with POSIX separator. -/
def joinPath (root file : String) : String :=
  root ++ "/" ++ file

/-- Python `s.endswith(suffix)` (on the character sequence; Lean's own
`String.endsWith` is byte-position based and not kernel-computable). -/
def strEndsWith (s suffix : String) : Bool :=
  List.isSuffixOf suffix.data s.data

/-- The function `parse_junit_reports` (script lines 48–59).  A missing path raises
`FileNotFoundError(f"Path '{path_to_reports}', not found")` (payload
carries the path); a file is parsed directly; a directory walks its tree
and merges every file `f` with `f.endswith("xml")` — note the filter is
the bare suffix `"xml"`, not `".xml"`; `tqdm` is decorative iteration.
A path that exists but is neither file nor directory leaves `ret_xml`
unassigned, so line 59 raises `UnboundLocalError`. -/
def parse_junit_reports (fs : FileSystem) (path_to_reports : String) :
    Except PyError Dict :=
  if fs.pathExists path_to_reports = false then
    .error (.fileNotFoundError path_to_reports)
  else if fs.isFile path_to_reports then
    .ok (convert_junit_to_dict (fs.fileXml path_to_reports))
  else if fs.isDir path_to_reports then
    .ok (convert_junit_to_dict
      ((fs.walk path_to_reports).foldl
        (fun ret_xml rf =>
          (rf.2.filter fun f => strEndsWith f "xml").foldl
            (fun a f => xmlAdd a (fs.fileXml (joinPath rf.1 f))) ret_xml)
        emptyXml))
  else
    .error .unboundLocalError

/-- The files a directory walk actually parses, flattened: every file in
the walk whose name ends in `"xml"`, joined to its root. -/
def dirXmlFiles (fs : FileSystem) (path : String) : List String :=
  (fs.walk path).foldl
    (fun acc rf => acc ++ (rf.2.filter fun f => strEndsWith f "xml").map (joinPath rf.1))
    []

/-- A one-directory filesystem whose single report file is named `axml` —
a name that ends in `xml` but NOT in `.xml` — and parses to a suite `S`
holding one test case `C.t` of duration 1. -/
def fsAxml : FileSystem where
  pathExists := fun p => p == "reports"
  isFile := fun _ => false
  isDir := fun p => p == "reports"
  walk := fun _ => [("reports", ["axml"])]
  fileXml := fun _ => ⟨"F", .consSuite "S" (.consCase "C" "t" 1 .nil) .nil⟩

/-- The whole pipeline of `main` (script lines 85–109) after argument
parsing, with a numeric threshold: load both report sets, compute the
delta, run the two threshold checks.  A load error propagates. -/
def mainRun (fs : FileSystem) (basePath comparePath : String) (threshold : ℚ) :
    Except PyError Unit := do
  let base ← parse_junit_reports fs basePath
  let compare_to ← parse_junit_reports fs comparePath
  let changed := calculate_changed base compare_to
  mainCheck changed base compare_to threshold

/-- A Python runtime value, as far as the threshold option is concerned:
argparse delivers either the `int` default `10` or the raw command-line
string. -/
inductive PyVal : Type where
  | num (q : ℚ) : PyVal
  | str (s : String) : PyVal
deriving DecidableEq

/-- From `parse_args` (script lines 29–45): the `-t` (long `--threshold`) option has
`default=10` and NO `type=` converter, so a value supplied on the command
line stays a `str`, while the default is the `int` `10`. -/
def parseArgsThreshold (cliThreshold : Option String) : PyVal :=
  match cliThreshold with
  | some s => .str s
  | none => .num 10

/-- Python 3 `a > b` on runtime values: numeric comparison between
numbers, lexicographic between strings, `TypeError` between a number and
a string. -/
def pyGt : PyVal → PyVal → Except PyError Bool
  | .num a, .num b => .ok (decide (b < a))
  | .str a, .str b => .ok (decide (b < a))
  | _, _ => .error .typeError

/-- Line 90's comprehension with a runtime-typed threshold: each item is
retained when `v > options.threshold` evaluates true, and that comparison
raises `TypeError` when one side is a float and the other a str (the
comprehension stops at the first raising comparison). -/
def overThresholdPy (changed : Dict) (threshold : PyVal) :
    Except PyError Dict :=
  match changed with
  | [] => .ok []
  | p :: rest => do
    let keep ← pyGt (.num p.2) threshold
    let tail ← overThresholdPy rest threshold
    pure (if keep then p :: tail else tail)

/-! ## Dictionary lemmas -/

theorem optOr_none_right (a : Option ℚ) : optOr a none = a := by
  cases a <;> rfl

theorem optOr_assoc (a b c : Option ℚ) :
    optOr (optOr a b) c = optOr a (optOr b c) := by
  cases a <;> rfl

theorem dictGet_append (d₁ d₂ : Dict) (k : String) :
    dictGet (d₁ ++ d₂) k = optOr (dictGet d₁ k) (dictGet d₂ k) := by
  induction d₁ with
  | nil => simp [dictGet, optOr]
  | cons p d ih => by_cases h : p.1 = k <;> simp [dictGet, h, ih, optOr]

theorem dictGet_isSome_eq_contains (d : Dict) (k : String) :
    (dictGet d k).isSome = dictContains d k := by
  induction d with
  | nil => rfl
  | cons p d ih => by_cases h : p.1 = k <;> simp [dictGet, dictContains, h, ih]

theorem dictGet_eq_none_of_not_contains (d : Dict) (k : String)
    (h : dictContains d k = false) : dictGet d k = none := by
  cases hg : dictGet d k with
  | none => rfl
  | some v =>
    have hs := dictGet_isSome_eq_contains d k
    rw [hg, h] at hs
    simp at hs

theorem dictGet_map_replace (d : Dict) (k : String) (v : ℚ) (k' : String)
    (h : k' ≠ k) :
    dictGet (d.map fun p => if p.1 = k then (k, v) else p) k' = dictGet d k' := by
  induction d with
  | nil => rfl
  | cons p d ih =>
    by_cases hp : p.1 = k
    · have hk' : ¬(k = k') := fun hh => h hh.symm
      have hp' : ¬(p.1 = k') := by rw [hp]; exact hk'
      simp [dictGet, hp, hk', hp', ih]
    · have hrepl : (if p.1 = k then (k, v) else p) = p := if_neg hp
      simp only [List.map_cons, hrepl, dictGet, ih]

theorem dictGet_map_replace_self (d : Dict) (k : String) (v : ℚ)
    (h : dictContains d k = true) :
    dictGet (d.map fun p => if p.1 = k then (k, v) else p) k = some v := by
  induction d with
  | nil => simp [dictContains] at h
  | cons p d ih =>
    by_cases hp : p.1 = k
    · simp [dictGet, hp]
    · simp only [dictContains, if_neg hp] at h
      simp [dictGet, hp, ih h]

theorem dictGet_insert (d : Dict) (k : String) (v : ℚ) (k' : String) :
    dictGet (dictInsert d k v) k' = if k' = k then some v else dictGet d k' := by
  unfold dictInsert
  by_cases hc : dictContains d k
  · rw [if_pos hc]
    by_cases hk : k' = k
    · subst hk
      rw [if_pos rfl, dictGet_map_replace_self d k' v hc]
    · rw [if_neg hk, dictGet_map_replace d k v k' hk]
  · rw [if_neg hc, dictGet_append]
    by_cases hk : k' = k
    · subst hk
      rw [dictGet_eq_none_of_not_contains d k' (by simpa using hc)]
      simp [dictGet, optOr]
    · rw [if_neg hk]
      have hkk : ¬(k = k') := fun hh => hk hh.symm
      have hnil : dictGet [(k, v)] k' = none := by simp [dictGet, hkk]
      rw [hnil, optOr_none_right]

theorem dictGet_insertAll (rs : List (String × ℚ)) (d : Dict) (k : String) :
    dictGet (dictInsertAll d rs) k = optOr (lastBinding rs k) (dictGet d k) := by
  induction rs generalizing d with
  | nil => simp [dictInsertAll, lastBinding, dictGet, optOr]
  | cons p rs ih =>
    have h1 : dictInsertAll d (p :: rs) = dictInsertAll (dictInsert d p.1 p.2) rs := rfl
    rw [h1, ih]
    simp only [lastBinding, List.reverse_cons, dictGet_append, dictGet_insert]
    rw [optOr_assoc]
    congr 1
    by_cases hk : p.1 = k
    · simp [dictGet, hk, optOr]
    · have hkk : ¬(k = p.1) := fun hh => hk hh.symm
      simp [dictGet, hk, hkk, optOr]

theorem dictKeys_map_replace (d : Dict) (k : String) (v : ℚ) :
    dictKeys (d.map fun p => if p.1 = k then (k, v) else p) = dictKeys d := by
  induction d with
  | nil => rfl
  | cons p d ih =>
    by_cases hp : p.1 = k
    · simp only [List.map_cons, if_pos hp, dictKeys] at ih ⊢
      rw [ih, hp]
    · simp only [List.map_cons, if_neg hp, dictKeys] at ih ⊢
      rw [ih]

theorem contains_iff_mem_keys (d : Dict) (k : String) :
    dictContains d k = true ↔ k ∈ dictKeys d := by
  induction d with
  | nil => simp [dictContains, dictKeys]
  | cons p d ih =>
    have hkeys : dictKeys (p :: d) = p.1 :: dictKeys d := rfl
    rw [hkeys, List.mem_cons]
    by_cases hp : p.1 = k
    · constructor
      · intro _
        exact Or.inl hp.symm
      · intro _
        simp [dictContains, hp]
    · have hkk : ¬(k = p.1) := fun hh => hp hh.symm
      simp [dictContains, hp, hkk, ih]

theorem dictContains_reverse (d : Dict) (k : String) :
    dictContains d.reverse k = dictContains d k := by
  have h1 := contains_iff_mem_keys d.reverse k
  have h2 := contains_iff_mem_keys d k
  have h3 : k ∈ dictKeys d.reverse ↔ k ∈ dictKeys d := by
    simp [dictKeys, List.map_reverse]
  cases hc : dictContains d k <;> cases hr : dictContains d.reverse k <;> simp_all

theorem dictNodup_nil : dictNodup [] := by
  simp [dictNodup, dictKeys]

theorem dictNodup_insert (d : Dict) (k : String) (v : ℚ) (h : dictNodup d) :
    dictNodup (dictInsert d k v) := by
  unfold dictInsert
  by_cases hc : dictContains d k
  · rw [if_pos hc]
    unfold dictNodup
    rw [dictKeys_map_replace]
    exact h
  · rw [if_neg hc]
    unfold dictNodup dictKeys at h ⊢
    rw [List.map_append]
    refine List.Nodup.append h (by simp) ?_
    intro a ha hb
    simp at hb
    subst hb
    have : dictContains d a = true := (contains_iff_mem_keys d a).mpr ha
    rw [this] at hc
    exact hc rfl

theorem dictNodup_insertAll (rs : List (String × ℚ)) (d : Dict)
    (h : dictNodup d) : dictNodup (dictInsertAll d rs) := by
  induction rs generalizing d with
  | nil => exact h
  | cons p rs ih => exact ih _ (dictNodup_insert d p.1 p.2 h)

theorem dictGet_reverse_of_nodup (d : Dict) (h : dictNodup d) (k : String) :
    dictGet d.reverse k = dictGet d k := by
  induction d with
  | nil => rfl
  | cons p d ih =>
    have h' : p.1 ∉ dictKeys d ∧ (dictKeys d).Nodup := by
      simpa [dictNodup, dictKeys] using h
    rw [List.reverse_cons, dictGet_append, ih h'.2]
    by_cases hk : p.1 = k
    · subst hk
      have hcf : dictContains d p.1 = false := by
        cases hcc : dictContains d p.1
        · rfl
        · exact absurd ((contains_iff_mem_keys d p.1).mp hcc) h'.1
      rw [dictGet_eq_none_of_not_contains d p.1 hcf]
      simp [dictGet, optOr]
    · have hkk : ¬(k = p.1) := fun hh => hk hh.symm
      have hnil : dictGet [p] k = none := by simp [dictGet, hk]
      rw [hnil, optOr_none_right]
      simp [dictGet, hk]

theorem dictNodup_convertItems (items : JUnitItems) (name : String)
    (acc : Dict) (h : dictNodup acc) :
    dictNodup (convertItems name acc items) := by
  induction items generalizing name acc with
  | nil => exact h
  | consCase c t tm rest ih =>
    exact ih name _ (dictNodup_insert _ _ _ h)
  | consSuite sn sc rest ihc ihr =>
    exact ihr name _ (dictNodup_insertAll _ _ h)

theorem treeRecords_itemsAppend (name : String) (xs ys : JUnitItems) :
    treeRecords name (itemsAppend xs ys)
      = treeRecords name xs ++ treeRecords name ys := by
  induction xs with
  | nil => rfl
  | consCase c t tm rest ih => simp [itemsAppend, treeRecords, ih]
  | consSuite sn sc rest ihc ihr => simp [itemsAppend, treeRecords, ihr]

theorem dictGet_convertItems (items : JUnitItems) (name : String) (acc : Dict)
    (k : String) :
    dictGet (convertItems name acc items)
      k = optOr (lastBinding (treeRecords name items) k) (dictGet acc k) := by
  induction items generalizing name acc with
  | nil => simp [convertItems, treeRecords, lastBinding, dictGet, optOr]
  | consCase c t tm rest ih =>
    rw [convertItems, ih, dictGet_insert]
    simp only [treeRecords, lastBinding, List.reverse_cons, dictGet_append]
    rw [optOr_assoc]
    congr 1
    by_cases hk : name ++ "." ++ c ++ "." ++ t = k
    · simp [dictGet, hk, optOr]
    · have hkk : ¬(k = name ++ "." ++ c ++ "." ++ t) := fun hh => hk hh.symm
      simp [dictGet, hk, hkk, optOr]
  | consSuite sn sc rest ihc ihr =>
    rw [convertItems, ihr, dictUpdate, dictGet_insertAll]
    have hsub : lastBinding (convertItems sn [] sc) k
        = lastBinding (treeRecords sn sc) k := by
      rw [lastBinding,
        dictGet_reverse_of_nodup _ (dictNodup_convertItems sc sn [] dictNodup_nil) k,
        ihc]
      simp [dictGet, optOr_none_right]
    rw [hsub]
    simp only [treeRecords, lastBinding, List.reverse_append, dictGet_append]
    rw [optOr_assoc]

theorem dictGet_convert (xml : JUnitXml) (k : String) :
    dictGet (convert_junit_to_dict xml) k
      = lastBinding (treeRecords xml.name xml.items) k := by
  rw [convert_junit_to_dict, dictGet_convertItems]
  simp [dictGet, optOr_none_right]

/-! ## Lemmas about the delta calculator and the checks -/

theorem dictGet_map_keyfun (l : List String) (f : String → ℚ) (k : String) :
    dictGet (l.map fun x => (x, f x)) k = if k ∈ l then some (f k) else none := by
  induction l with
  | nil => simp [dictGet]
  | cons a l ih =>
    by_cases ha : a = k
    · subst ha
      simp [dictGet, ih]
    · have hka : ¬(k = a) := fun hh => ha hh.symm
      simp [dictGet, ha, hka, ih]

theorem calculate_changed_get (base compare_to : Dict) (k : String) :
    dictGet (calculate_changed base compare_to) k
      = if k ∈ bothKeys base compare_to then some (changeAt base compare_to k)
        else none := by
  rw [calculate_changed, dictGet_insertAll, lastBinding]
  have h1 : ((bothKeys base compare_to).map
      fun x => (x, changeAt base compare_to x)).reverse
      = (bothKeys base compare_to).reverse.map
        fun x => (x, changeAt base compare_to x) := by
    rw [List.map_reverse]
  rw [h1, dictGet_map_keyfun]
  simp [dictGet, optOr_none_right, List.mem_reverse]

theorem mem_bothKeys (base compare_to : Dict) (k : String) :
    k ∈ bothKeys base compare_to
      ↔ (dictContains base k = true ∧ dictContains compare_to k = true) := by
  rw [bothKeys, List.mem_filter]
  constructor
  · rintro ⟨hmem, hc⟩
    exact ⟨(contains_iff_mem_keys _ _).mpr hmem, by simpa using hc⟩
  · rintro ⟨hb, hc⟩
    exact ⟨(contains_iff_mem_keys _ _).mp hb, by simpa using hc⟩

theorem overThreshold_ne_nil_iff (changed : Dict) (t : ℚ) :
    overThreshold changed t ≠ [] ↔ ∃ p ∈ changed, t < p.2 := by
  rw [overThreshold]
  constructor
  · intro h
    rcases List.exists_mem_of_ne_nil _ h with ⟨p, hp⟩
    rcases List.mem_filter.mp hp with ⟨hmem, hlt⟩
    exact ⟨p, hmem, by simpa using hlt⟩
  · rintro ⟨p, hmem, hlt⟩ hnil
    have : p ∈ List.filter (fun p => decide (t < p.2)) changed :=
      List.mem_filter.mpr ⟨hmem, by simpa using hlt⟩
    rw [hnil] at this
    simp at this

theorem mem_addedTime (base compare_to : Dict) (k : String) (v : ℚ) :
    (k, v) ∈ addedTime base compare_to
      ↔ (dictGet compare_to k = some v ∧ dictContains base k = false) := by
  rw [addedTime]
  constructor
  · intro h
    rcases List.mem_map.mp h with ⟨a, ha, heq⟩
    have hak : a = k := congrArg Prod.fst heq
    subst hak
    rcases List.mem_filter.mp ha with ⟨hmem, hnb⟩
    have hcc : dictContains compare_to a = true :=
      (contains_iff_mem_keys _ _).mpr hmem
    have hbs : (dictGet compare_to a).isSome = true := by
      rw [dictGet_isSome_eq_contains, hcc]
    rcases Option.isSome_iff_exists.mp hbs with ⟨w, hw⟩
    have hv : v = w := by
      have h2 := congrArg Prod.snd heq
      simp at h2
      rw [← h2, hw]
      rfl
    refine ⟨by rw [hw, hv], ?_⟩
    cases hb : dictContains base a
    · rfl
    · rw [hb] at hnb
      simp at hnb
  · rintro ⟨hget, hnb⟩
    refine List.mem_map.mpr ⟨k, ?_, ?_⟩
    · refine List.mem_filter.mpr ⟨?_, ?_⟩
      · refine (contains_iff_mem_keys _ _).mp ?_
        rw [← dictGet_isSome_eq_contains, hget]
        rfl
      · simp [hnb]
    · rw [hget]
      rfl

theorem foldl_acc_append (l : List (String × List String))
    (g : String × List String → List String) (init : List String) :
    l.foldl (fun acc rf => acc ++ g rf) init = init ++ (l.map g).flatten := by
  induction l generalizing init with
  | nil => simp
  | cons rf rest ih =>
    simp only [List.foldl_cons, List.map_cons, List.flatten_cons, ih,
      List.append_assoc]

theorem foldl_xmlAdd_flatten (fs : FileSystem)
    (l : List (String × List String)) (init : JUnitXml) :
    l.foldl
      (fun ret_xml rf =>
        (rf.2.filter fun f => strEndsWith f "xml").foldl
          (fun a f => xmlAdd a (fs.fileXml (joinPath rf.1 f))) ret_xml)
      init
    = ((l.map fun rf =>
          (rf.2.filter fun f => strEndsWith f "xml").map (joinPath rf.1)).flatten).foldl
        (fun a f => xmlAdd a (fs.fileXml f)) init := by
  induction l generalizing init with
  | nil => rfl
  | cons rf rest ih =>
    simp only [List.foldl_cons, List.map_cons, List.flatten_cons,
      List.foldl_append, ih, List.foldl_map]

theorem dirXmlFiles_eq_flatten (fs : FileSystem) (path : String) :
    dirXmlFiles fs path
      = ((fs.walk path).map fun rf =>
          (rf.2.filter fun f => strEndsWith f "xml").map (joinPath rf.1)).flatten := by
  rw [dirXmlFiles, foldl_acc_append]
  rfl

theorem overThresholdPy_num (changed : Dict) (t : ℚ) :
    overThresholdPy changed (PyVal.num t) = .ok (overThreshold changed t) := by
  induction changed with
  | nil => rfl
  | cons p rest ih =>
    rw [overThresholdPy, pyGt, ih]
    by_cases h : t < p.2
    · simp [overThreshold, List.filter_cons, h, Bind.bind, Except.bind]
      rfl
    · simp [overThreshold, List.filter_cons, h, Bind.bind, Except.bind]
      rfl

/-! ## Claims -/

/-- C1 (counterexample): in the report tree rooted at `Root` containing a
nested suite `Nested` with leaf `C.t`, flattening keys the leaf as
`"Nested.C.t"` — the nested suite's name — and no `"Root."`-prefixed key
exists, refuting "names of nested suites below the root never appear in
any key; only the root name is the prefix". -/
theorem claim_C1_counterexample :
    dictGet (convert_junit_to_dict
        ⟨"Root", .consSuite "Nested" (.consCase "C" "t" 1 .nil) .nil⟩)
      "Nested.C.t" = some 1 ∧
    dictGet (convert_junit_to_dict
        ⟨"Root", .consSuite "Nested" (.consCase "C" "t" 1 .nil) .nil⟩)
      "Root.C.t" = none := by
  exact ⟨rfl, rfl⟩

/-- C1 (amended): a leaf's key in the flattened mapping is its IMMEDIATE
parent container's name (the root's name exactly for leaves directly
under the root) joined with its class and test names: the flattened dict
has precisely the keys of `treeRecords`, which prefixes each leaf with
its immediate parent's name. -/
theorem claim_C1_amended_keys (xml : JUnitXml) (k : String) :
    (dictGet (convert_junit_to_dict xml) k).isSome
      = dictContains (treeRecords xml.name xml.items) k := by
  rw [dictGet_convert, lastBinding, dictGet_isSome_eq_contains,
    dictContains_reverse]

/-- C2: `parse_args` applies no type conversion to the threshold option,
so a command-line-supplied threshold reaches the per-test comparison as a
`str`, and Python 3's `float > str` raises `TypeError` (here on delta
`{"S.C.t1": 15}` with threshold string `"10"`); with the intended numeric
threshold the comparison never raises and agrees with the pure filter. -/
theorem claim_C2_threshold_type_error :
    parseArgsThreshold (some "10") = PyVal.str "10" ∧
    overThresholdPy [("S.C.t1", 15)] (parseArgsThreshold (some "10"))
      = .error .typeError ∧
    (∀ (changed : Dict) (t : ℚ),
      overThresholdPy changed (PyVal.num t) = .ok (overThreshold changed t)) := by
  exact ⟨rfl, rfl, fun changed t => overThresholdPy_num changed t⟩

/-- C3: the per-test check fires iff some delta strictly exceeds the
threshold (so a delta equal to the threshold never triggers it); when it
fires, the payload is the full mapping of offending keys to their deltas
and the result is independent of the report sets — the aggregate check
is not evaluated. -/
theorem claim_C3_per_test_check (changed base compare_to base2 compare2 : Dict)
    (t : ℚ) :
    ((mainCheck changed base compare_to t
        = .error (.thresholdExceeded (overThreshold changed t)) ∧
      overThreshold changed t ≠ [])
      ↔ ∃ p ∈ changed, t < p.2) ∧
    ((∃ p ∈ changed, t < p.2) →
      mainCheck changed base compare_to t = mainCheck changed base2 compare2 t) ∧
    (∀ kv : String × ℚ,
      kv ∈ overThreshold changed t ↔ (kv ∈ changed ∧ t < kv.2)) := by
  refine ⟨?_, ?_, ?_⟩
  · constructor
    · rintro ⟨_, hne⟩
      exact (overThreshold_ne_nil_iff changed t).mp hne
    · intro hex
      have hne := (overThreshold_ne_nil_iff changed t).mpr hex
      exact ⟨by simp [mainCheck, hne], hne⟩
  · intro hex
    have hne := (overThreshold_ne_nil_iff changed t).mpr hex
    simp [mainCheck, hne]
  · intro kv
    simp [overThreshold, List.mem_filter]

/-- C3 witness (the spec's Scenario B): delta 15 > threshold 10 raises
with the offending mapping as payload. -/
theorem claim_C3_witness :
    mainCheck [("S.C.t1", 15)] [("S.C.t1", 10)] [("S.C.t1", 11.5)] 10
      = .error (.thresholdExceeded [("S.C.t1", 15)]) := by
  have h := (claim_C3_per_test_check [("S.C.t1", 15)] [("S.C.t1", 10)]
    [("S.C.t1", 11.5)] [] [] 10).1
  have h2 := (h.mpr ⟨("S.C.t1", 15), by simp, by norm_num⟩).1
  have h3 : overThreshold [("S.C.t1", 15)] 10 = [("S.C.t1", 15)] := by decide
  rw [h3] at h2
  exact h2

/-- C4: when the per-test check passes and the base total is nonzero, the
aggregate check raises `ThresholdExceeded` exactly when
`(total_compare - total_base) / total_base * 100` strictly exceeds the
threshold, with a payload mapping exactly the additive keys (present in
compare, absent from base) to their compare-run durations; otherwise the
run returns normally. -/
theorem claim_C4_aggregate_check (changed base compare_to : Dict) (t : ℚ)
    (h1 : overThreshold changed t = []) (h2 : sumValues base ≠ 0) :
    (mainCheck changed base compare_to t
        = .error (.thresholdExceeded (addedTime base compare_to))
      ↔ t < totalPercentageChanged base compare_to) ∧
    (mainCheck changed base compare_to t = .ok ()
      ↔ ¬ t < totalPercentageChanged base compare_to) ∧
    (∀ kv : String × ℚ, kv ∈ addedTime base compare_to
      ↔ (dictGet compare_to kv.1 = some kv.2 ∧ dictContains base kv.1 = false)) := by
  refine ⟨?_, ?_, ?_⟩
  · by_cases h3 : t < totalPercentageChanged base compare_to
    · simp [mainCheck, h1, h2, h3]
    · simp [mainCheck, h1, h2, h3]
  · by_cases h3 : t < totalPercentageChanged base compare_to
    · simp [mainCheck, h1, h2, h3]
    · simp [mainCheck, h1, h2, h3]
  · intro kv
    simpa using mem_addedTime base compare_to kv.1 kv.2

/-- C4 witness (the spec's Scenario C): additive test `S.C.t2` pushes the
total from 5 to 105 (+2000% > 10%), raising with payload
`{"S.C.t2": 100}`. -/
theorem claim_C4_witness :
    mainCheck [("S.C.t1", 0)] [("S.C.t1", 5)] [("S.C.t1", 5), ("S.C.t2", 100)] 10
      = .error (.thresholdExceeded [("S.C.t2", 100)]) := by
  have h := (claim_C4_aggregate_check [("S.C.t1", 0)] [("S.C.t1", 5)]
      [("S.C.t1", 5), ("S.C.t2", 100)] 10 (by decide)
      (by norm_num [sumValues])).1
  have h2 := h.mpr (by norm_num [totalPercentageChanged, sumValues])
  have h3 : addedTime [("S.C.t1", 5)] [("S.C.t1", 5), ("S.C.t2", 100)]
      = [("S.C.t2", 100)] := by decide
  rw [h3] at h2
  exact h2

/-- C5 (counterexample): in `fsAxml` the walk holds exactly one file,
named `axml` — a name that does NOT end in `".xml"` — yet directory
loading parses it (the filter is `endswith("xml")`), so its test record
reaches the loaded report set, refuting "every file whose name does not
end in `.xml` is silently skipped". -/
theorem claim_C5_counterexample :
    parse_junit_reports fsAxml "reports" = .ok [("S.C.t", 1)] ∧
    strEndsWith "axml" ".xml" = false ∧
    (fsAxml.walk "reports").map Prod.snd = [["axml"]] := by
  exact ⟨rfl, rfl, rfl⟩

/-- C5 (amended): for an existing directory path, exactly the walked
files whose names end in the bare suffix `"xml"` (not `".xml"`) are
parsed and merged, in walk order; all other files contribute nothing. -/
theorem claim_C5_amended (fs : FileSystem) (path : String)
    (hex : fs.pathExists path = true) (hnf : fs.isFile path = false)
    (hd : fs.isDir path = true) :
    parse_junit_reports fs path
      = .ok (convert_junit_to_dict
          ((dirXmlFiles fs path).foldl
            (fun a f => xmlAdd a (fs.fileXml f)) emptyXml)) ∧
    (∀ f, f ∈ dirXmlFiles fs path
      ↔ ∃ rf ∈ fs.walk path, ∃ nm ∈ rf.2,
          strEndsWith nm "xml" = true ∧ f = joinPath rf.1 nm) := by
  constructor
  · rw [parse_junit_reports]
    simp only [hex, hnf, hd, Bool.true_eq_false, Bool.false_eq_true,
      if_false, if_true]
    rw [foldl_xmlAdd_flatten, dirXmlFiles_eq_flatten]
  · intro f
    rw [dirXmlFiles_eq_flatten]
    simp only [List.mem_flatten, List.mem_map, List.mem_filter]
    constructor
    · rintro ⟨l, ⟨rf, hrf, hl⟩, hf⟩
      subst hl
      rcases List.mem_map.mp hf with ⟨nm, hnm, hjoin⟩
      rcases List.mem_filter.mp hnm with ⟨hnm2, hsx⟩
      exact ⟨rf, hrf, nm, hnm2, by simpa using hsx, hjoin.symm⟩
    · rintro ⟨rf, hrf, nm, hnm, hsx, hf⟩
      refine ⟨(rf.2.filter fun f => strEndsWith f "xml").map (joinPath rf.1),
        ⟨rf, hrf, rfl⟩, ?_⟩
      subst hf
      exact List.mem_map.mpr ⟨nm, List.mem_filter.mpr ⟨hnm, by simpa using hsx⟩, rfl⟩

/-- C5 witness: on `fsAxml` the directory branch parses exactly the
flattened `"xml"`-suffixed walk files, and the non-`.xml` file
`reports/axml` is among them. -/
theorem claim_C5_witness :
    parse_junit_reports fsAxml "reports"
      = .ok (convert_junit_to_dict
          ((dirXmlFiles fsAxml "reports").foldl
            (fun a f => xmlAdd a (fsAxml.fileXml f)) emptyXml)) ∧
    "reports/axml" ∈ dirXmlFiles fsAxml "reports" := by
  have h := claim_C5_amended fsAxml "reports" rfl rfl rfl
  refine ⟨h.1, ?_⟩
  exact (h.2 "reports/axml").mpr
    ⟨("reports", ["axml"]), by simp [fsAxml], "axml", by simp, rfl, rfl⟩

/-- C6: for a key present in both report sets, the delta is `0` when the
base duration is `0` (whatever the compare duration), else exactly
`(compare - base) / base * 100`. -/
theorem claim_C6_delta_value (base compare_to : Dict) (k : String) (x y : ℚ)
    (hb : dictGet base k = some x) (hc : dictGet compare_to k = some y) :
    dictGet (calculate_changed base compare_to) k
      = some (if x = 0 then 0 else (y - x) / x * 100) := by
  have hkb : dictContains base k = true := by
    rw [← dictGet_isSome_eq_contains, hb]
    rfl
  have hkc : dictContains compare_to k = true := by
    rw [← dictGet_isSome_eq_contains, hc]
    rfl
  have hmem : k ∈ bothKeys base compare_to := (mem_bothKeys _ _ _).mpr ⟨hkb, hkc⟩
  rw [calculate_changed_get, if_pos hmem, changeAt, hb, hc]
  simp

/-- C6 witness (the spec's Scenario A delta): base 10, compare 11 gives
exactly +10%. -/
theorem claim_C6_witness :
    dictGet (calculate_changed [("S.C.t1", 10)] [("S.C.t1", 11)]) "S.C.t1"
      = some 10 := by
  have h := claim_C6_delta_value [("S.C.t1", 10)] [("S.C.t1", 11)]
    "S.C.t1" 10 11 rfl rfl
  rw [h]
  norm_num

/-- C7: the delta set's key set is exactly the intersection of the two
report sets' key sets — no more, no less (and the calculator is a pure
function of its arguments, inherent to the functional embedding). -/
theorem claim_C7_delta_keyset (base compare_to : Dict) (k : String) :
    (dictGet (calculate_changed base compare_to) k).isSome
      = (dictContains base k && dictContains compare_to k) := by
  rw [calculate_changed_get]
  by_cases hmem : k ∈ bothKeys base compare_to
  · rcases (mem_bothKeys _ _ _).mp hmem with ⟨hb, hc⟩
    simp [hmem, hb, hc]
  · have hiff := mem_bothKeys base compare_to k
    cases hb : dictContains base k <;> cases hc : dictContains compare_to k <;>
      simp_all

/-- C8: if the per-test check passes and the base report set's durations
sum to zero, the aggregate computation is an unguarded division by zero
and the run raises `ZeroDivisionError` — there is no guard analogous to
the per-test one in `calculate_changed`. -/
theorem claim_C8_zero_division (changed base compare_to : Dict) (t : ℚ)
    (h1 : overThreshold changed t = []) (h2 : sumValues base = 0) :
    mainCheck changed base compare_to t = .error .zeroDivisionError := by
  simp [mainCheck, h1, h2]

/-- C8 witness: empty base report set, nonempty compare. -/
theorem claim_C8_witness :
    mainCheck [] [] [("S.C.t1", 1)] 10 = .error .zeroDivisionError :=
  claim_C8_zero_division [] [] [("S.C.t1", 1)] 10 rfl rfl

/-- C9: a path that does not exist makes the loader fail immediately with
`FileNotFoundError` carrying that path; the error propagates unrecovered
through the whole pipeline; and for an existing path the loader never
raises `FileNotFoundError`. -/
theorem claim_C9_not_found (fs : FileSystem) (path basePath comparePath : String)
    (t : ℚ) :
    (fs.pathExists path = false →
      parse_junit_reports fs path = .error (.fileNotFoundError path)) ∧
    (fs.pathExists path = true →
      ∀ p, parse_junit_reports fs path ≠ .error (.fileNotFoundError p)) ∧
    (fs.pathExists basePath = false →
      mainRun fs basePath comparePath t = .error (.fileNotFoundError basePath)) := by
  refine ⟨?_, ?_, ?_⟩
  · intro h
    simp [parse_junit_reports, h]
  · intro h p
    rw [parse_junit_reports]
    simp only [h, Bool.true_eq_false, if_false]
    by_cases hf : fs.isFile path
    · simp [hf]
    · by_cases hd : fs.isDir path <;> simp [hf, hd]
  · intro h
    have hp : parse_junit_reports fs basePath
        = .error (.fileNotFoundError basePath) := by
      simp [parse_junit_reports, h]
    rw [mainRun, hp]
    rfl

/-- C9 witness: on `fsAxml`, the missing path `nope` raises
`FileNotFoundError("nope")` from the loader and from the whole run, while
the existing path `reports` does not raise `FileNotFoundError`. -/
theorem claim_C9_witness :
    parse_junit_reports fsAxml "nope" = .error (.fileNotFoundError "nope") ∧
    parse_junit_reports fsAxml "reports" ≠ .error (.fileNotFoundError "reports") ∧
    mainRun fsAxml "nope" "reports" 10 = .error (.fileNotFoundError "nope") := by
  have h := claim_C9_not_found fsAxml "nope" "nope" "reports" 10
  have h2 := claim_C9_not_found fsAxml "reports" "nope" "reports" 10
  exact ⟨h.1 rfl, h2.2.1 rfl "reports", h.2.2 rfl⟩

/-- C10: flattening is last-write-wins for every record sequence — the
flattened dict's value at any key is the value of the LAST record bearing
that key in the tree's in-order record sequence — and merging two reports
concatenates their record sequences in encounter order. -/
theorem claim_C10_last_write_wins (xml a b : JUnitXml) (k : String) :
    dictGet (convert_junit_to_dict xml) k
      = lastBinding (treeRecords xml.name xml.items) k ∧
    treeRecords (xmlAdd a b).name (xmlAdd a b).items
      = treeRecords a.name a.items ++ treeRecords a.name b.items := by
  exact ⟨dictGet_convert xml k, treeRecords_itemsAppend a.name a.items b.items⟩

end AnalyzeXunit
